import Mathlib

/-!
Verification of `src/force_signal_analysis.py` (biomechanics signal
processing pipeline): sampling-rate estimation, moving-average smoothing,
zero-phase Butterworth low-pass filtering and slope-based heel-strike /
toe-off detection.

Real-valued samples are modelled as rationals (`ℚ`): every arithmetic
operation the analysed code performs on its data (subtraction, sums,
division, `min`, comparisons) is a field operation, exact over `ℚ`.
Python / NumPy exceptions are modelled by the `PyErr` type; NumPy's
non-raising float special values (`inf`, `nan`) by `NPFloat`.
-/

/-- Kinds of exception the Python code can raise (built-in Python / NumPy
errors, plus the custom error classes named by the design document, so that
statements can compare which kind is actually raised). -/
inductive PyErr where
  | valueError
  | zeroDivisionError
  | indexError
  | insufficientDataError
  | invalidParameterError
  | invalidSamplingError
deriving DecidableEq, Repr

/-- A NumPy double as far as the analysed code exercises it: either an exact
finite value (all finite computations of the pipeline are field operations,
modelled exactly over `ℚ`), or the non-finite results `inf` / `nan` that NumPy
produces without raising (division of a positive float by `0.0`, mean of an
empty array). -/
inductive NPFloat where
  | finite (q : ℚ)
  | inf
  | nan
deriving DecidableEq, Repr

/-- `np.diff`: one-step consecutive differences, `(npdiff l)[i] = l[i+1] - l[i]`,
length one less than the input. -/
def npdiff (l : List ℚ) : List ℚ :=
  List.zipWith (fun b a => b - a) l.tail l

/-- `int(np.argmax(l))`: index of the first occurrence of the maximum value
(NumPy documents that with several occurrences of the maximum, the index of
the first is returned). On the empty list NumPy raises; callers guard for
that, and the value `0` here is never used unguarded. -/
def argmaxIdx : List ℚ → ℕ
  | [] => 0
  | x :: xs =>
    if xs ≠ [] ∧ x < xs.getD (argmaxIdx xs) 0 then argmaxIdx xs + 1 else 0

/-- `int(np.argmin(l))`: index of the first occurrence of the minimum value. -/
def argminIdx : List ℚ → ℕ
  | [] => 0
  | x :: xs =>
    if xs ≠ [] ∧ xs.getD (argminIdx xs) 0 < x then argminIdx xs + 1 else 0

/-- `compute_sampling_rate` from `force_signal_analysis.py`:
`dt = np.mean(np.diff(time)); fs = 1.0 / dt`. The function performs no
validation: `np.mean` of an empty difference array (input shorter than 2)
yields `nan` (a `RuntimeWarning`, not an exception), and `1.0 / 0.0` on NumPy
floats yields `inf` (again a warning, not an exception), so the function
always returns a value and never raises. -/
def compute_sampling_rate (time : List ℚ) : NPFloat :=
  let d := npdiff time
  if d.isEmpty then .nan
  else
    let dt := d.sum / (d.length : ℚ)
    if dt = 0 then .inf else .finite (1 / dt)

/-- `detect_heel_toe` from `force_signal_analysis.py`:
`slope = np.diff(force); heel_idx = int(np.argmax(slope));
toe_idx = int(np.argmin(slope)); heel_time = time[heel_idx + 1];
toe_time = time[toe_idx + 1]; return heel_idx + 1, toe_idx + 1, heel_time,
toe_time`. When `force` has fewer than 2 samples the slope array is empty and
`np.argmax` raises `ValueError` (there is no custom error class in the code);
when a time lookup is out of range NumPy raises `IndexError`. -/
def detect_heel_toe (force time : List ℚ) : Except PyErr (ℕ × ℕ × ℚ × ℚ) :=
  let slope := npdiff force
  if slope.isEmpty then .error .valueError
  else
    let heel_idx := argmaxIdx slope
    let toe_idx := argminIdx slope
    match time[heel_idx + 1]?, time[toe_idx + 1]? with
    | some heel_time, some toe_time =>
        .ok (heel_idx + 1, toe_idx + 1, heel_time, toe_time)
    | _, _ => .error .indexError

/-- Full (`mode="full"`) discrete convolution of two sequences:
`(fullConv a v)[k] = sum of a[j] * v[k - j]` over the positions where both
factors exist; length `len(a) + len(v) - 1`. -/
def fullConv (a v : List ℚ) : List ℚ :=
  (List.range (a.length + v.length - 1)).map fun k =>
    ∑ j ∈ Finset.range a.length,
      if j ≤ k ∧ k - j < v.length then a.getD j 0 * v.getD (k - j) 0 else 0

/-- `np.convolve(a, v, mode="same")`. NumPy swaps the arguments so the first
is the longer (convolution is commutative), computes the full convolution and
keeps the centred slice of length `max(len(a), len(v))` starting at offset
`(min(len(a), len(v)) - 1) / 2` (integer division); the output is therefore
longer than `a` whenever the kernel `v` is longer than `a`. -/
def convolveSame (a v : List ℚ) : List ℚ :=
  ((fullConv a v).drop ((min a.length v.length - 1) / 2)).take
    (max a.length v.length)

/-- `moving_average` from `force_signal_analysis.py`:
`kernel = np.ones(window) / window; return np.convolve(signal, kernel,
mode="same")`. A window of `0` gives an empty kernel and `np.convolve` raises
`ValueError` (`v cannot be empty`); NumPy likewise raises `ValueError` for an
empty signal (`a cannot be empty`) and for a negative window size
(`negative dimensions are not allowed`, from `np.ones`), so all invalid
window sizes are collapsed onto `window = 0` of this model. -/
def moving_average (signal : List ℚ) (window : ℕ) : Except PyErr (List ℚ) :=
  if window = 0 ∨ signal.isEmpty then .error .valueError
  else .ok (convolveSame signal (List.replicate window (1 / (window : ℚ))))

/-- Modelled from the spec: `scipy.signal.butter(order, Wn, btype="low")` is
library code outside this repository. Per the design document it derives
digital low-pass coefficients for a given order and normalized cutoff
`Wn ∈ (0, 1)`; numerator and denominator each carry `order + 1` coefficients,
with the denominator normalized to a leading `1`. The coefficient magnitudes
come from floating-point trigonometric filter design and are abstracted here
(no claim in this development depends on them); the validation that `Wn` lies
strictly inside `(0, 1)` and that the order is a nonnegative integer, which
is what the error-behavior claims exercise, is modelled in
`butterworth_lowpass` below at the point the library raises. -/
def butter (order : ℕ) (Wn : ℚ) : List ℚ × List ℚ :=
  (List.replicate (order + 1) Wn, 1 :: List.replicate order 0)

/-- Modelled from the spec: the single-pass linear (IIR) filter
`scipy.signal.lfilter` applied by `filtfilt` in each direction — the standard
difference equation `a[0] * y[n] = sum b[i] * x[n-i] - sum a[i] * y[n-i]`,
exact over `ℚ`; the value of `y[n]`. -/
def lfilterStep (b a x ys : List ℚ) (n : ℕ) : ℚ :=
  ((∑ i ∈ Finset.range b.length,
      if i ≤ n then b.getD i 0 * x.getD (n - i) 0 else 0)
    - (∑ i ∈ Finset.range a.length,
        if 1 ≤ i ∧ i ≤ n then a.getD i 0 * ys.getD (n - i) 0 else 0))
    / a.headD 1

/-- The forward pass of the linear filter: one output sample per input
sample (zero initial conditions; `filtfilt`'s initial-condition seeding is a
floating-point detail abstracted away — no claim depends on the values, only
on the shape and the completion behavior). -/
def lfilter (b a x : List ℚ) : List ℚ :=
  (List.range x.length).foldl (fun ys n => ys ++ [lfilterStep b a x ys n]) []

/-- Odd extension of a signal by `n` samples at each end
(`scipy.signal._arraytools.odd_ext`, the default padding of `filtfilt`):
each end is reflected through its endpoint. -/
def odd_ext (x : List ℚ) (n : ℕ) : List ℚ :=
  ((List.range n).map fun i => 2 * x.headD 0 - x.getD (n - i) 0)
    ++ x
    ++ ((List.range n).map fun i => 2 * x.getLastD 0 - x.getD (x.length - 2 - i) 0)

/-- Modelled from the spec: `scipy.signal.filtfilt(b, a, x)` with its default
arguments — zero-phase dual-pass filtering, library code outside this
repository. The signal is extended at both ends by
`padlen = 3 * max(len(a), len(b))` samples (odd extension; the library raises
`ValueError` — "The length of the input vector x must be greater than
padlen" — when `len(x) ≤ padlen`), filtered forward, reversed, filtered
again, reversed back, and the extensions sliced off, so a successful result
has exactly the input's length. -/
def filtfilt (b a x : List ℚ) : Except PyErr (List ℚ) :=
  let padlen := 3 * max a.length b.length
  if x.length ≤ padlen then .error .valueError
  else
    let ext := odd_ext x padlen
    let y1 := lfilter b a ext
    let y2 := (lfilter b a y1.reverse).reverse
    .ok ((y2.drop padlen).take x.length)

/-- The normalized cutoff computed by `butterworth_lowpass`:
`nyquist = fs / 2.0; fc_clipped = min(fc, 0.99 * nyquist);
Wn = fc_clipped / nyquist`. -/
def butterworth_Wn (fs fc : ℚ) : ℚ :=
  min fc (99 / 100 * (fs / 2)) / (fs / 2)

/-- `butterworth_lowpass` from `force_signal_analysis.py`:
`nyquist = fs / 2.0; fc_clipped = min(fc, 0.99 * nyquist);
Wn = fc_clipped / nyquist; b, a = butter(order, Wn, btype="low");
filtered = filtfilt(b, a, signal); return filtered`.
The function itself raises nothing: with `fs = 0` the division computing `Wn`
is a Python float division by zero and raises `ZeroDivisionError`; the
library then raises `ValueError` when `Wn` falls outside `(0, 1)` (checked by
`iirfilter` before the order), when the order is negative (`buttap`), or when
the signal is not longer than `filtfilt`'s pad length. No
`InvalidParameterError` exists anywhere in the code. -/
def butterworth_lowpass (signal : List ℚ) (fs fc : ℚ) (order : ℤ) :
    Except PyErr (List ℚ) :=
  if fs = 0 then .error .zeroDivisionError
  else
    let Wn := butterworth_Wn fs fc
    if Wn ≤ 0 ∨ 1 ≤ Wn then .error .valueError
    else if order < 0 then .error .valueError
    else
      let ba := butter order.toNat Wn
      filtfilt ba.1 ba.2 signal

-- ---------------------------------------------------------------------------
-- Basic lemmas about the embedded primitives
-- ---------------------------------------------------------------------------

theorem npdiff_length (l : List ℚ) : (npdiff l).length = l.length - 1 := by
  simp [npdiff]

theorem npdiff_getD (l : List ℚ) (i : ℕ) (h : i + 1 < l.length) :
    (npdiff l).getD i 0 = l.getD (i + 1) 0 - l.getD i 0 := by
  have hi : i < (npdiff l).length := by rw [npdiff_length]; omega
  have hti : i < l.tail.length := by simp; omega
  have hli : i < l.length := by omega
  rw [List.getD_eq_getElem _ _ hi, List.getD_eq_getElem _ _ h,
      List.getD_eq_getElem _ _ hli]
  simp [npdiff, List.getElem_tail]

theorem argmaxIdx_lt_length (l : List ℚ) (h : l ≠ []) :
    argmaxIdx l < l.length := by
  induction l with
  | nil => simp at h
  | cons x xs ih =>
    rw [argmaxIdx]
    split
    · rename_i hc
      have := ih hc.1
      simpa using this
    · simp

theorem getD_le_argmaxIdx (l : List ℚ) (i : ℕ) (hi : i < l.length) :
    l.getD i 0 ≤ l.getD (argmaxIdx l) 0 := by
  induction l generalizing i with
  | nil => simp at hi
  | cons x xs ih =>
    rw [argmaxIdx]
    split
    · rename_i hc
      rw [List.getD_cons_succ]
      cases i with
      | zero => simpa using le_of_lt hc.2
      | succ j =>
        rw [List.getD_cons_succ]
        exact ih j (by simpa using hi)
    · rename_i hc
      rw [List.getD_cons_zero]
      cases i with
      | zero => simp
      | succ j =>
        rw [List.getD_cons_succ]
        have hj : j < xs.length := by simpa using hi
        have hxs : xs ≠ [] := by
          intro hnil; rw [hnil] at hj; simp at hj
        push_neg at hc
        exact le_trans (ih j hj) (hc hxs)

theorem argmaxIdx_first (l : List ℚ) (j : ℕ) (hj : j < argmaxIdx l) :
    l.getD j 0 < l.getD (argmaxIdx l) 0 := by
  induction l generalizing j with
  | nil => rw [argmaxIdx] at hj; omega
  | cons x xs ih =>
    rw [argmaxIdx] at hj ⊢
    split
    · rename_i hc
      rw [List.getD_cons_succ]
      cases j with
      | zero => simpa using hc.2
      | succ k =>
        rw [List.getD_cons_succ]
        have hk : k < argmaxIdx xs := by
          simp only [if_pos hc] at hj; omega
        exact ih k hk
    · rename_i hc
      rw [if_neg hc] at hj
      omega

theorem argminIdx_lt_length (l : List ℚ) (h : l ≠ []) :
    argminIdx l < l.length := by
  induction l with
  | nil => simp at h
  | cons x xs ih =>
    rw [argminIdx]
    split
    · rename_i hc
      have := ih hc.1
      simpa using this
    · simp

theorem argminIdx_le_getD (l : List ℚ) (i : ℕ) (hi : i < l.length) :
    l.getD (argminIdx l) 0 ≤ l.getD i 0 := by
  induction l generalizing i with
  | nil => simp at hi
  | cons x xs ih =>
    rw [argminIdx]
    split
    · rename_i hc
      rw [List.getD_cons_succ]
      cases i with
      | zero => simpa using le_of_lt hc.2
      | succ j =>
        rw [List.getD_cons_succ]
        exact ih j (by simpa using hi)
    · rename_i hc
      rw [List.getD_cons_zero]
      cases i with
      | zero => simp
      | succ j =>
        rw [List.getD_cons_succ]
        have hj : j < xs.length := by simpa using hi
        have hxs : xs ≠ [] := by
          intro hnil; rw [hnil] at hj; simp at hj
        push_neg at hc
        exact le_trans (hc hxs) (ih j hj)

theorem argminIdx_first (l : List ℚ) (j : ℕ) (hj : j < argminIdx l) :
    l.getD (argminIdx l) 0 < l.getD j 0 := by
  induction l generalizing j with
  | nil => rw [argminIdx] at hj; omega
  | cons x xs ih =>
    rw [argminIdx] at hj ⊢
    split
    · rename_i hc
      rw [List.getD_cons_succ]
      cases j with
      | zero => simpa using hc.2
      | succ k =>
        rw [List.getD_cons_succ]
        have hk : k < argminIdx xs := by
          simp only [if_pos hc] at hj; omega
        exact ih k hk
    · rename_i hc
      rw [if_neg hc] at hj
      omega

-- ---------------------------------------------------------------------------
-- Structure of the event detector on well-formed input
-- ---------------------------------------------------------------------------

theorem detect_heel_toe_eq (force time : List ℚ) (h2 : 2 ≤ force.length)
    (hlen : force.length ≤ time.length) :
    detect_heel_toe force time =
      .ok (argmaxIdx (npdiff force) + 1, argminIdx (npdiff force) + 1,
        time.getD (argmaxIdx (npdiff force) + 1) 0,
        time.getD (argminIdx (npdiff force) + 1) 0) := by
  have hslen : (npdiff force).length = force.length - 1 := npdiff_length force
  have hsne : npdiff force ≠ [] := by
    intro hnil
    rw [hnil] at hslen
    simp at hslen
    omega
  have hempty : (npdiff force).isEmpty = false := by
    simpa [List.isEmpty_iff] using hsne
  have hh : argmaxIdx (npdiff force) + 1 < time.length := by
    have := argmaxIdx_lt_length (npdiff force) hsne
    omega
  have ht : argminIdx (npdiff force) + 1 < time.length := by
    have := argminIdx_lt_length (npdiff force) hsne
    omega
  have lookupH : time[argmaxIdx (npdiff force) + 1]? =
      some (time.getD (argmaxIdx (npdiff force) + 1) 0) := by
    rw [List.getElem?_eq_getElem hh, List.getD_eq_getElem _ _ hh]
  have lookupT : time[argminIdx (npdiff force) + 1]? =
      some (time.getD (argminIdx (npdiff force) + 1) 0) := by
    rw [List.getElem?_eq_getElem ht, List.getD_eq_getElem _ _ ht]
  simp only [detect_heel_toe, hempty, Bool.false_eq_true, if_false, lookupH,
    lookupT]

/-- C1: for a force series of length `N ≥ 2` and an index-aligned time series
of length `N`, the detector returns heel-strike index = (first position of the
maximum slope) + 1 and toe-off index = (first position of the minimum slope)
+ 1, with timestamps read from the time series at those offset indices; ties
are broken deterministically toward the lowest index. -/
theorem detect_heel_toe_extreme_slope_indices (force time : List ℚ)
    (h2 : 2 ≤ force.length) (hlen : time.length = force.length) :
    ∃ hIdx tIdx,
      detect_heel_toe force time =
        .ok (hIdx + 1, tIdx + 1, time.getD (hIdx + 1) 0, time.getD (tIdx + 1) 0) ∧
      hIdx < (npdiff force).length ∧ tIdx < (npdiff force).length ∧
      (∀ i < (npdiff force).length,
        (npdiff force).getD i 0 ≤ (npdiff force).getD hIdx 0) ∧
      (∀ j < hIdx, (npdiff force).getD j 0 < (npdiff force).getD hIdx 0) ∧
      (∀ i < (npdiff force).length,
        (npdiff force).getD tIdx 0 ≤ (npdiff force).getD i 0) ∧
      (∀ j < tIdx, (npdiff force).getD tIdx 0 < (npdiff force).getD j 0) := by
  have hsne : npdiff force ≠ [] := by
    intro hnil
    have := npdiff_length force
    rw [hnil] at this
    simp at this
    omega
  refine ⟨argmaxIdx (npdiff force), argminIdx (npdiff force),
    detect_heel_toe_eq force time h2 (le_of_eq hlen.symm),
    argmaxIdx_lt_length _ hsne, argminIdx_lt_length _ hsne,
    fun i hi => getD_le_argmaxIdx _ i hi,
    fun j hj => argmaxIdx_first _ j hj,
    fun i hi => argminIdx_le_getD _ i hi,
    fun j hj => argminIdx_first _ j hj⟩

/-- Witness for C1 at force `[0, 5, 1]`, time `[10, 11, 12]`: the slope is
`[5, -4]`, heel-strike index `1` (time `11`), toe-off index `2` (time `12`). -/
theorem detect_heel_toe_extreme_slope_indices_witness :
    ∃ hIdx tIdx,
      detect_heel_toe [(0:ℚ), 5, 1] [(10:ℚ), 11, 12] =
        .ok (hIdx + 1, tIdx + 1, [(10:ℚ), 11, 12].getD (hIdx + 1) 0,
          [(10:ℚ), 11, 12].getD (tIdx + 1) 0) ∧
      hIdx < (npdiff [(0:ℚ), 5, 1]).length ∧ tIdx < (npdiff [(0:ℚ), 5, 1]).length ∧
      (∀ i < (npdiff [(0:ℚ), 5, 1]).length,
        (npdiff [(0:ℚ), 5, 1]).getD i 0 ≤ (npdiff [(0:ℚ), 5, 1]).getD hIdx 0) ∧
      (∀ j < hIdx,
        (npdiff [(0:ℚ), 5, 1]).getD j 0 < (npdiff [(0:ℚ), 5, 1]).getD hIdx 0) ∧
      (∀ i < (npdiff [(0:ℚ), 5, 1]).length,
        (npdiff [(0:ℚ), 5, 1]).getD tIdx 0 ≤ (npdiff [(0:ℚ), 5, 1]).getD i 0) ∧
      (∀ j < tIdx,
        (npdiff [(0:ℚ), 5, 1]).getD tIdx 0 < (npdiff [(0:ℚ), 5, 1]).getD j 0) :=
  detect_heel_toe_extreme_slope_indices [(0:ℚ), 5, 1] [(10:ℚ), 11, 12]
    (by decide) (by decide)

/-- C10: for force and time series of equal length `N ≥ 2`, both returned
indices lie in `[1, N-1]`, so the time lookup inside the detector and the
force-magnitude lookup performed by the caller are in bounds; for `N = 2`
both indices equal `1` and the two events carry the same timestamp. -/
theorem detect_indices_in_bounds (force time : List ℚ)
    (h2 : 2 ≤ force.length) (hlen : time.length = force.length) :
    ∃ hIdx tIdx hTime tTime,
      detect_heel_toe force time = .ok (hIdx, tIdx, hTime, tTime) ∧
      1 ≤ hIdx ∧ hIdx ≤ force.length - 1 ∧
      1 ≤ tIdx ∧ tIdx ≤ force.length - 1 ∧
      hIdx < time.length ∧ tIdx < time.length ∧
      hIdx < force.length ∧ tIdx < force.length ∧
      (force.length = 2 → hIdx = 1 ∧ tIdx = 1 ∧ hTime = tTime) := by
  have hsne : npdiff force ≠ [] := by
    intro hnil
    have := npdiff_length force
    rw [hnil] at this
    simp at this
    omega
  have hmax := argmaxIdx_lt_length (npdiff force) hsne
  have hmin := argminIdx_lt_length (npdiff force) hsne
  rw [npdiff_length] at hmax hmin
  refine ⟨argmaxIdx (npdiff force) + 1, argminIdx (npdiff force) + 1,
    time.getD (argmaxIdx (npdiff force) + 1) 0,
    time.getD (argminIdx (npdiff force) + 1) 0,
    detect_heel_toe_eq force time h2 (le_of_eq hlen.symm),
    by omega, by omega, by omega, by omega,
    by omega, by omega, by omega, by omega, ?_⟩
  intro hN
  have e1 : argmaxIdx (npdiff force) = 0 := by omega
  have e2 : argminIdx (npdiff force) = 0 := by omega
  rw [e1, e2]
  exact ⟨rfl, rfl, rfl⟩

/-- Witness for C10 at force `[3, 9]`, time `[0, 1]` (the `N = 2` case): both
indices are `1` and both timestamps are `1`. -/
theorem detect_indices_in_bounds_witness :
    ∃ hIdx tIdx hTime tTime,
      detect_heel_toe [(3:ℚ), 9] [(0:ℚ), 1] = .ok (hIdx, tIdx, hTime, tTime) ∧
      1 ≤ hIdx ∧ hIdx ≤ [(3:ℚ), 9].length - 1 ∧
      1 ≤ tIdx ∧ tIdx ≤ [(3:ℚ), 9].length - 1 ∧
      hIdx < [(0:ℚ), 1].length ∧ tIdx < [(0:ℚ), 1].length ∧
      hIdx < [(3:ℚ), 9].length ∧ tIdx < [(3:ℚ), 9].length ∧
      ([(3:ℚ), 9].length = 2 → hIdx = 1 ∧ tIdx = 1 ∧ hTime = tTime) :=
  detect_indices_in_bounds [(3:ℚ), 9] [(0:ℚ), 1] (by decide) (by decide)

/-- C8 counterexample: at force `[0, 7, 3]`, time `[10, 11, 12]` the detector
returns exactly `(1, 2, 11, 12)` — heel index, toe index and the two
timestamps. The force magnitudes at the detected indices (`7` at the
heel-strike index `1` and `3` at the toe-off index `2`) appear nowhere in the
returned tuple, so the result does not include them; the caller (presentation
code in `main`) looks them up separately as `butter_force[heel_idx]`. -/
theorem detect_result_omits_force_counterexample :
    detect_heel_toe [(0:ℚ), 7, 3] [(10:ℚ), 11, 12] = .ok (1, 2, 11, 12) ∧
    [(0:ℚ), 7, 3].getD 1 0 = 7 ∧ [(0:ℚ), 7, 3].getD 2 0 = 3 ∧
    ((1:ℚ) ≠ 7 ∧ (2:ℚ) ≠ 7 ∧ (11:ℚ) ≠ 7 ∧ (12:ℚ) ≠ 7) ∧
    ((1:ℚ) ≠ 3 ∧ (2:ℚ) ≠ 3 ∧ (11:ℚ) ≠ 3 ∧ (12:ℚ) ≠ 3) := by
  norm_num [detect_heel_toe, npdiff, argmaxIdx, argminIdx]

/-- C8 (amended): the detector returns the two indices together with their
timestamps only; the force magnitudes at those indices are not part of the
result, but the returned indices are in bounds for the force series, so the
caller's lookups of the magnitudes succeed. -/
theorem detect_returns_indices_timestamps (force time : List ℚ)
    (h2 : 2 ≤ force.length) (hlen : time.length = force.length) :
    ∃ hIdx tIdx,
      detect_heel_toe force time =
        .ok (hIdx, tIdx, time.getD hIdx 0, time.getD tIdx 0) ∧
      hIdx < force.length ∧ tIdx < force.length := by
  have hsne : npdiff force ≠ [] := by
    intro hnil
    have := npdiff_length force
    rw [hnil] at this
    simp at this
    omega
  have hmax := argmaxIdx_lt_length (npdiff force) hsne
  have hmin := argminIdx_lt_length (npdiff force) hsne
  rw [npdiff_length] at hmax hmin
  exact ⟨argmaxIdx (npdiff force) + 1, argminIdx (npdiff force) + 1,
    detect_heel_toe_eq force time h2 (le_of_eq hlen.symm), by omega, by omega⟩

/-- Witness for the amended C8 at force `[2, 8, 5]`, time `[0, 1, 2]`. -/
theorem detect_returns_indices_timestamps_witness :
    ∃ hIdx tIdx,
      detect_heel_toe [(2:ℚ), 8, 5] [(0:ℚ), 1, 2] =
        .ok (hIdx, tIdx, [(0:ℚ), 1, 2].getD hIdx 0, [(0:ℚ), 1, 2].getD tIdx 0) ∧
      hIdx < [(2:ℚ), 8, 5].length ∧ tIdx < [(2:ℚ), 8, 5].length :=
  detect_returns_indices_timestamps [(2:ℚ), 8, 5] [(0:ℚ), 1, 2]
    (by decide) (by decide)

/-- C5 counterexample: on a force series of length `1` the detector fails with
NumPy's `ValueError` (raised by `np.argmax` on the empty slope array), not
with a custom `InsufficientDataError` — no such error class exists in the
code. -/
theorem detect_short_error_kind_counterexample :
    detect_heel_toe [(1:ℚ)] [(1:ℚ)] = .error .valueError ∧
    detect_heel_toe [(1:ℚ)] [(1:ℚ)] ≠ .error .insufficientDataError := by
  constructor
  · norm_num [detect_heel_toe, npdiff]
  · norm_num [detect_heel_toe, npdiff]
    decide

/-- C5 (amended): for every force series of length `< 2` (and any time
series) the detector fails — but with the library `ValueError` raised by
`np.argmax` on the empty slope array, not with `InsufficientDataError`. -/
theorem detect_short_raises_value_error (force time : List ℚ)
    (h : force.length < 2) :
    detect_heel_toe force time = .error .valueError := by
  have hnil : npdiff force = [] := by
    cases hn : npdiff force with
    | nil => rfl
    | cons a t =>
      have := npdiff_length force
      rw [hn] at this
      simp at this
      omega
  simp [detect_heel_toe, hnil]

/-- Witness for the amended C5 at force `[1]`, time `[1]`. -/
theorem detect_short_raises_value_error_witness :
    [(1:ℚ)].length < 2 ∧
    detect_heel_toe [(1:ℚ)] [(2:ℚ), 3] = .error .valueError :=
  ⟨by decide, detect_short_raises_value_error [(1:ℚ)] [(2:ℚ), 3] (by decide)⟩

-- ---------------------------------------------------------------------------
-- Sampling-rate estimator
-- ---------------------------------------------------------------------------

theorem npdiff_pos_of_chain (l : List ℚ) (h : l.Chain' (· < ·)) :
    ∀ x ∈ npdiff l, 0 < x := by
  induction l with
  | nil => intro x hx; simp [npdiff] at hx
  | cons a t ih =>
    cases t with
    | nil => intro x hx; simp [npdiff] at hx
    | cons b u =>
      rw [List.chain'_cons] at h
      intro x hx
      have hx2 : x ∈ (b - a) :: npdiff (b :: u) := by
        simpa [npdiff] using hx
      rcases List.mem_cons.mp hx2 with h1 | h2
      · rw [h1]; linarith [h.1]
      · exact ih h.2 x h2

/-- C3: for a time series of length `≥ 2` with strictly increasing
timestamps, the estimator returns `fs = 1 / (mean of consecutive
differences)`, which is strictly positive, and `1 / fs` equals the mean
inter-sample interval (exactly, over `ℚ`). -/
theorem compute_sampling_rate_strict_mono (time : List ℚ)
    (h2 : 2 ≤ time.length) (hmono : time.Chain' (· < ·)) :
    ∃ fs : ℚ, compute_sampling_rate time = .finite fs ∧ 0 < fs ∧
      1 / fs = (npdiff time).sum / ((npdiff time).length : ℚ) ∧
      fs = 1 / ((npdiff time).sum / ((npdiff time).length : ℚ)) := by
  have hne : npdiff time ≠ [] := by
    intro hnil
    have := npdiff_length time
    rw [hnil] at this
    simp at this
    omega
  have hpos : ∀ x ∈ npdiff time, 0 < x := npdiff_pos_of_chain time hmono
  have hsum : 0 < (npdiff time).sum := List.sum_pos _ hpos hne
  have hlenpos : (0:ℚ) < ((npdiff time).length : ℚ) := by
    have : 0 < (npdiff time).length := List.length_pos.mpr hne
    exact_mod_cast this
  have hdtpos : 0 < (npdiff time).sum / ((npdiff time).length : ℚ) :=
    div_pos hsum hlenpos
  have hdtne : (npdiff time).sum / ((npdiff time).length : ℚ) ≠ 0 :=
    ne_of_gt hdtpos
  have hempty : (npdiff time).isEmpty = false := by
    simpa [List.isEmpty_iff] using hne
  refine ⟨1 / ((npdiff time).sum / ((npdiff time).length : ℚ)), ?_, ?_, ?_, rfl⟩
  · simp only [compute_sampling_rate, hempty, Bool.false_eq_true, if_false]
    rw [if_neg hdtne]
  · exact one_div_pos.mpr hdtpos
  · rw [one_div_one_div]

/-- Witness for C3 at time `[0, 1, 3]`: mean interval `3/2`, rate `2/3`. -/
theorem compute_sampling_rate_strict_mono_witness :
    2 ≤ [(0:ℚ), 1, 3].length ∧ List.Chain' (· < ·) [(0:ℚ), 1, 3] ∧
    (∃ fs : ℚ, compute_sampling_rate [(0:ℚ), 1, 3] = .finite fs ∧ 0 < fs ∧
      1 / fs = (npdiff [(0:ℚ), 1, 3]).sum / ((npdiff [(0:ℚ), 1, 3]).length : ℚ) ∧
      fs = 1 / ((npdiff [(0:ℚ), 1, 3]).sum / ((npdiff [(0:ℚ), 1, 3]).length : ℚ))) :=
  ⟨by decide, by norm_num [List.chain'_cons],
    compute_sampling_rate_strict_mono [(0:ℚ), 1, 3] (by decide)
      (by norm_num [List.chain'_cons])⟩

/-- C6 counterexample: at time `[1, 0]` the mean consecutive difference is
`-1 ≤ 0`, yet the estimator does not fail at all — it has no error path — and
returns the meaningless negative rate `-1`. -/
theorem sampling_rate_nonpositive_counterexample :
    compute_sampling_rate [(1:ℚ), 0] = NPFloat.finite (-1) ∧ (-1 : ℚ) < 0 := by
  norm_num [compute_sampling_rate, npdiff]

/-- C6 (amended): the estimator performs no validation and never raises.
For a series shorter than 2 it returns NumPy's `nan` (mean of an empty
array); when the mean consecutive difference is negative it silently returns
the negative rate `1/dt`; when the mean difference is zero it returns `inf`
(`1.0 / 0.0` on NumPy floats warns and yields infinity, it does not raise). -/
theorem compute_sampling_rate_no_validation (time : List ℚ) :
    (time.length < 2 → compute_sampling_rate time = .nan) ∧
    (2 ≤ time.length → (npdiff time).sum / ((npdiff time).length : ℚ) < 0 →
      compute_sampling_rate time =
        .finite (1 / ((npdiff time).sum / ((npdiff time).length : ℚ))) ∧
      1 / ((npdiff time).sum / ((npdiff time).length : ℚ)) < 0) ∧
    (2 ≤ time.length → (npdiff time).sum / ((npdiff time).length : ℚ) = 0 →
      compute_sampling_rate time = .inf) := by
  refine ⟨?_, ?_, ?_⟩
  · intro hshort
    have hnil : npdiff time = [] := by
      cases hn : npdiff time with
      | nil => rfl
      | cons a t =>
        have := npdiff_length time
        rw [hn] at this
        simp at this
        omega
    simp [compute_sampling_rate, hnil]
  · intro hlong hneg
    have hne : npdiff time ≠ [] := by
      intro hnil
      have := npdiff_length time
      rw [hnil] at this
      simp at this
      omega
    have hempty : (npdiff time).isEmpty = false := by
      simpa [List.isEmpty_iff] using hne
    have hdtne : (npdiff time).sum / ((npdiff time).length : ℚ) ≠ 0 :=
      ne_of_lt hneg
    constructor
    · simp only [compute_sampling_rate, hempty, Bool.false_eq_true, if_false]
      rw [if_neg hdtne]
    · exact one_div_neg.mpr hneg
  · intro hlong hzero
    have hne : npdiff time ≠ [] := by
      intro hnil
      have := npdiff_length time
      rw [hnil] at this
      simp at this
      omega
    have hempty : (npdiff time).isEmpty = false := by
      simpa [List.isEmpty_iff] using hne
    simp only [compute_sampling_rate, hempty, Bool.false_eq_true, if_false]
    rw [if_pos hzero]

/-- Witness for the amended C6 at time `[1, 0]`: mean difference `-1 < 0` and
the returned rate is the negative value `1 / (-1) = -1`. -/
theorem compute_sampling_rate_no_validation_witness :
    compute_sampling_rate [(1:ℚ), 0] =
      .finite (1 / ((npdiff [(1:ℚ), 0]).sum / ((npdiff [(1:ℚ), 0]).length : ℚ))) ∧
    1 / ((npdiff [(1:ℚ), 0]).sum / ((npdiff [(1:ℚ), 0]).length : ℚ)) < 0 :=
  (compute_sampling_rate_no_validation [(1:ℚ), 0]).2.1 (by decide)
    (by norm_num [npdiff])

-- ---------------------------------------------------------------------------
-- Convolution and the moving-average filter
-- ---------------------------------------------------------------------------

theorem fullConv_length (a v : List ℚ) :
    (fullConv a v).length = a.length + v.length - 1 := by
  simp [fullConv]

theorem fullConv_getD (a v : List ℚ) (k : ℕ)
    (hk : k < a.length + v.length - 1) :
    (fullConv a v).getD k 0 =
      ∑ j ∈ Finset.range a.length,
        if j ≤ k ∧ k - j < v.length then a.getD j 0 * v.getD (k - j) 0
        else 0 := by
  have hk2 : k < (fullConv a v).length := by rw [fullConv_length]; exact hk
  rw [List.getD_eq_getElem _ _ hk2]
  simp [fullConv]

theorem convolveSame_length (a v : List ℚ) (ha : a ≠ []) (hv : v ≠ []) :
    (convolveSame a v).length = max a.length v.length := by
  have ha1 : 0 < a.length := List.length_pos.mpr ha
  have hv1 : 0 < v.length := List.length_pos.mpr hv
  simp [convolveSame, fullConv_length]
  omega

theorem convolveSame_getD (a v : List ℚ) (i : ℕ) (ha : a ≠ []) (hv : v ≠ [])
    (hi : i < max a.length v.length) :
    (convolveSame a v).getD i 0 =
      (fullConv a v).getD (i + (min a.length v.length - 1) / 2) 0 := by
  have ha1 : 0 < a.length := List.length_pos.mpr ha
  have hv1 : 0 < v.length := List.length_pos.mpr hv
  have h1 : i < (convolveSame a v).length := by
    rw [convolveSame_length a v ha hv]; exact hi
  have h2 : i + (min a.length v.length - 1) / 2 < a.length + v.length - 1 := by
    have : (min a.length v.length - 1) / 2 ≤ min a.length v.length - 1 :=
      Nat.div_le_self _ _
    omega
  have h3 : i + (min a.length v.length - 1) / 2 < (fullConv a v).length := by
    rw [fullConv_length]; exact h2
  rw [List.getD_eq_getElem _ _ h1, List.getD_eq_getElem _ _ h3]
  simp only [convolveSame, List.getElem_take, List.getElem_drop]
  congr 1
  omega

theorem list_eq_of_getD (l1 l2 : List ℚ) (hlen : l1.length = l2.length)
    (h : ∀ i < l1.length, l1.getD i 0 = l2.getD i 0) : l1 = l2 := by
  apply List.ext_getElem hlen
  intro i h1 h2
  have hg := h i h1
  rwa [List.getD_eq_getElem _ _ h1, List.getD_eq_getElem _ _ h2] at hg

theorem moving_average_ok (signal : List ℚ) (W : ℕ) (hW : 1 ≤ W)
    (hne : signal ≠ []) :
    moving_average signal W =
      .ok (convolveSame signal (List.replicate W (1 / (W : ℚ)))) := by
  have hempty : signal.isEmpty = false := by
    simpa [List.isEmpty_iff] using hne
  simp only [moving_average, hempty, Bool.false_eq_true, or_false]
  rw [if_neg (by omega)]

/-- C4 counterexample: for signal `[1, 2]` (length 2) and window `3` the
filter completes and returns `[1/3, 1, 1]` — a list of length `3`, not of the
input's length `2`: `np.convolve(..., mode="same")` returns
`max(len(signal), window)` samples, so the "same length" part of the claim
fails whenever the window exceeds the signal length. -/
theorem moving_average_length_counterexample :
    moving_average [(1:ℚ), 2] 3 = .ok [1/3, 1, 1] ∧
    ¬ ([(1:ℚ)/3, 1, 1].length = [(1:ℚ), 2].length) := by
  constructor
  · norm_num [moving_average, convolveSame, fullConv, List.range_succ,
      Finset.sum_range_succ, List.replicate]
  · decide

/-- C4 (amended): for window sizes `1 ≤ W ≤ N` the output has the input's
length `N` and `output[i]` is the sum of the input samples inside the window
of `W` positions centred at `i` (clipped to the sequence bounds), divided by
`W` — so boundary positions are attenuated partial averages (the divisor
stays `W`; no synthetic padding data enters the sum). For `W > N` the output
instead has length `W` (see the counterexample). -/
theorem moving_average_centered_window (signal : List ℚ) (W : ℕ)
    (hW : 1 ≤ W) (hWN : W ≤ signal.length) :
    ∃ out, moving_average signal W = .ok out ∧
      out.length = signal.length ∧
      ∀ i < signal.length,
        out.getD i 0 =
          (∑ j ∈ Finset.range signal.length,
            if i + (W - 1) / 2 < j + W ∧ j ≤ i + (W - 1) / 2
            then signal.getD j 0 else 0) / (W : ℚ) := by
  have hne : signal ≠ [] := by
    intro h
    rw [h] at hWN
    simp at hWN
    omega
  have hNpos : 0 < signal.length := List.length_pos.mpr hne
  have hkerne : List.replicate W ((1:ℚ) / (W : ℚ)) ≠ [] := by
    simp only [ne_eq, List.replicate_eq_nil_iff]
    omega
  have hkerlen : (List.replicate W ((1:ℚ) / (W : ℚ))).length = W :=
    List.length_replicate W _
  refine ⟨convolveSame signal (List.replicate W ((1:ℚ) / (W : ℚ))),
    moving_average_ok signal W hW hne, ?_, ?_⟩
  · rw [convolveSame_length signal _ hne hkerne, hkerlen]
    omega
  · intro i hi
    have hmax : i < max signal.length (List.replicate W ((1:ℚ) / (W : ℚ))).length := by
      rw [hkerlen]
      omega
    rw [convolveSame_getD signal _ i hne hkerne hmax]
    have hmin : (min signal.length (List.replicate W ((1:ℚ) / (W : ℚ))).length - 1) / 2
        = (W - 1) / 2 := by
      rw [hkerlen]
      have : min signal.length W = W := min_eq_right hWN
      rw [this]
    rw [hmin]
    have hdivle : (W - 1) / 2 ≤ W - 1 := Nat.div_le_self _ _
    rw [fullConv_getD signal _ (i + (W - 1) / 2) (by rw [hkerlen]; omega)]
    rw [Finset.sum_div]
    refine Finset.sum_congr rfl fun j hj => ?_
    rw [hkerlen]
    by_cases hc : j ≤ i + (W - 1) / 2 ∧ i + (W - 1) / 2 - j < W
    · rw [if_pos hc, if_pos (by omega)]
      have hidx : i + (W - 1) / 2 - j < (List.replicate W ((1:ℚ) / (W : ℚ))).length := by
        rw [hkerlen]
        exact hc.2
      rw [List.getD_eq_getElem _ _ hidx, List.getElem_replicate, mul_one_div]
    · rw [if_neg hc, if_neg (by omega), zero_div]

/-- Witness for the amended C4 at signal `[1, 2, 3, 4]`, window `3`. -/
theorem moving_average_centered_window_witness :
    ∃ out, moving_average [(1:ℚ), 2, 3, 4] 3 = .ok out ∧
      out.length = [(1:ℚ), 2, 3, 4].length ∧
      ∀ i < [(1:ℚ), 2, 3, 4].length,
        out.getD i 0 =
          (∑ j ∈ Finset.range [(1:ℚ), 2, 3, 4].length,
            if i + (3 - 1) / 2 < j + 3 ∧ j ≤ i + (3 - 1) / 2
            then [(1:ℚ), 2, 3, 4].getD j 0 else 0) / ((3:ℕ) : ℚ) :=
  moving_average_centered_window [(1:ℚ), 2, 3, 4] 3 (by decide) (by decide)

theorem convolveSame_single_one (a : List ℚ) (ha : a ≠ []) :
    convolveSame a [(1:ℚ)] = a := by
  have ha1 : 0 < a.length := List.length_pos.mpr ha
  have hvne : ([(1:ℚ)] : List ℚ) ≠ [] := by simp
  have hlen : (convolveSame a [(1:ℚ)]).length = a.length := by
    rw [convolveSame_length a _ ha hvne]
    simp only [List.length_singleton]
    omega
  apply list_eq_of_getD _ _ hlen
  intro i hi
  rw [hlen] at hi
  have hmax : i < max a.length ([(1:ℚ)] : List ℚ).length := by
    simp only [List.length_singleton]
    omega
  rw [convolveSame_getD a _ i ha hvne hmax]
  have hidx : i + (min a.length ([(1:ℚ)] : List ℚ).length - 1) / 2 = i := by
    simp only [List.length_singleton]
    omega
  rw [hidx]
  rw [fullConv_getD a _ i (by simp only [List.length_singleton]; omega)]
  have hterm : ∀ j ∈ Finset.range a.length,
      (if j ≤ i ∧ i - j < ([(1:ℚ)] : List ℚ).length
        then a.getD j 0 * ([(1:ℚ)] : List ℚ).getD (i - j) 0 else 0)
        = if j = i then a.getD j 0 else 0 := by
    intro j hj
    simp only [List.length_singleton]
    by_cases hc : j = i
    · subst hc
      simp
    · rw [if_neg (by omega), if_neg hc]
  rw [Finset.sum_congr rfl hterm, Finset.sum_ite_eq' (Finset.range a.length) i]
  rw [if_pos (Finset.mem_range.mpr hi)]

theorem moving_average_map_length (signal : List ℚ) (W : ℕ) (hW : 1 ≤ W)
    (hne : signal ≠ []) :
    (moving_average signal W).map List.length = .ok (max signal.length W) := by
  rw [moving_average_ok signal W hW hne]
  have hkerne : List.replicate W ((1:ℚ) / (W : ℚ)) ≠ [] := by
    simp only [ne_eq, List.replicate_eq_nil_iff]
    omega
  have hlen := convolveSame_length signal _ hne hkerne
  rw [List.length_replicate] at hlen
  simp only [Except.map]
  rw [hlen]

/-- C7 counterexample: for the length-2 signal `[0, 0]` and window `3 > 1`
the output is `[0, 0, 0]`, of length `3` — not the input's length `2`. -/
theorem moving_average_window_gt_length_counterexample :
    moving_average [(0:ℚ), 0] 3 = .ok [0, 0, 0] ∧
    ¬ ([(0:ℚ), 0, 0].length = [(0:ℚ), 0].length) := by
  constructor
  · norm_num [moving_average, convolveSame, fullConv, List.range_succ,
      Finset.sum_range_succ, List.replicate]
  · decide

/-- C7 (amended): window `1` is the identity on every nonempty signal; for a
window `W ≥ 1` the output length is `max(N, W)` — equal to the input length
`N` exactly when `W ≤ N`, and equal to `W` (longer than the input) when
`W > N`. -/
theorem moving_average_identity_and_length (signal : List ℚ) (W : ℕ)
    (hne : signal ≠ []) (hW : 1 ≤ W) :
    moving_average signal 1 = .ok signal ∧
    (moving_average signal W).map List.length = .ok (max signal.length W) := by
  constructor
  · rw [moving_average_ok signal 1 le_rfl hne]
    have hk : List.replicate 1 ((1:ℚ) / ((1:ℕ) : ℚ)) = [(1:ℚ)] := by norm_num
    rw [hk, convolveSame_single_one signal hne]
  · exact moving_average_map_length signal W hW hne

/-- Witness for the amended C7 at signal `[4, 5]`, window `2`. -/
theorem moving_average_identity_and_length_witness :
    moving_average [(4:ℚ), 5] 1 = .ok [(4:ℚ), 5] ∧
    (moving_average [(4:ℚ), 5] 2).map List.length =
      .ok (max [(4:ℚ), 5].length 2) :=
  moving_average_identity_and_length [(4:ℚ), 5] 2 (by simp) (by decide)

-- ---------------------------------------------------------------------------
-- The zero-phase low-pass filter
-- ---------------------------------------------------------------------------

theorem lfilter_length (b a x : List ℚ) : (lfilter b a x).length = x.length := by
  suffices h : ∀ (n : ℕ) (init : List ℚ),
      ((List.range n).foldl (fun ys k => ys ++ [lfilterStep b a x ys k])
        init).length = init.length + n by
    simpa [lfilter] using h x.length []
  intro n
  induction n with
  | zero => intro init; simp
  | succ m ih =>
    intro init
    rw [List.range_succ, List.foldl_append]
    simp [ih]
    omega

theorem odd_ext_length (x : List ℚ) (n : ℕ) :
    (odd_ext x n).length = x.length + 2 * n := by
  simp [odd_ext]
  omega

theorem filtfilt_ok_length (b a x out : List ℚ)
    (h : filtfilt b a x = .ok out) : out.length = x.length := by
  by_cases hlen : x.length ≤ 3 * max a.length b.length
  · simp only [filtfilt, if_pos hlen] at h
    simp at h
  · simp only [filtfilt, if_neg hlen] at h
    rw [Except.ok.injEq] at h
    subst h
    simp [lfilter_length, odd_ext_length]
    omega

theorem filtfilt_ok_of_length (b a x : List ℚ)
    (h : 3 * max a.length b.length < x.length) :
    ∃ out, filtfilt b a x = .ok out := by
  simp only [filtfilt]
  rw [if_neg (by omega)]
  exact ⟨_, rfl⟩

theorem filtfilt_error_is_valueError (b a x : List ℚ) (e : PyErr)
    (h : filtfilt b a x = .error e) : e = .valueError := by
  by_cases h3 : x.length ≤ 3 * max a.length b.length
  · simp only [filtfilt, if_pos h3] at h
    exact (Except.error.inj h).symm
  · simp only [filtfilt, if_neg h3] at h
    simp at h

theorem butterworth_never_invalid (s : List ℚ) (fs fc : ℚ) (o : ℤ) :
    butterworth_lowpass s fs fc o ≠ .error .invalidParameterError := by
  intro h
  by_cases h0 : fs = 0
  · simp only [butterworth_lowpass, if_pos h0] at h
    simp at h
  · simp only [butterworth_lowpass, if_neg h0] at h
    by_cases h1 : butterworth_Wn fs fc ≤ 0 ∨ 1 ≤ butterworth_Wn fs fc
    · rw [if_pos h1] at h
      simp at h
    · rw [if_neg h1] at h
      by_cases h2 : o < 0
      · rw [if_pos h2] at h
        simp at h
      · rw [if_neg h2] at h
        have := filtfilt_error_is_valueError _ _ _ _ h
        exact PyErr.noConfusion this

theorem butterworth_ok_length (signal : List ℚ) (fs fc : ℚ) (order : ℤ)
    (out : List ℚ) (h : butterworth_lowpass signal fs fc order = .ok out) :
    out.length = signal.length := by
  by_cases h0 : fs = 0
  · simp only [butterworth_lowpass, if_pos h0] at h
    simp at h
  · simp only [butterworth_lowpass, if_neg h0] at h
    by_cases h1 : butterworth_Wn fs fc ≤ 0 ∨ 1 ≤ butterworth_Wn fs fc
    · rw [if_pos h1] at h
      simp at h
    · rw [if_neg h1] at h
      by_cases h2 : order < 0
      · rw [if_pos h2] at h
        simp at h
      · rw [if_neg h2] at h
        exact filtfilt_ok_length _ _ _ _ h

/-- C2 counterexample: at `fs = 0` (with `fc = 8`, `order = 4`) the function
raises `ZeroDivisionError` — the Python float division `Wn = fc_clipped /
nyquist` divides by zero before any library call — and not
`InvalidParameterError`, which exists nowhere in the code. -/
theorem butterworth_fs_zero_counterexample :
    butterworth_lowpass [(0:ℚ)] 0 8 4 = .error .zeroDivisionError ∧
    butterworth_lowpass [(0:ℚ)] 0 8 4 ≠ .error .invalidParameterError := by
  constructor
  · simp [butterworth_lowpass]
  · simp [butterworth_lowpass]

/-- C2 (amended): the low-pass filter never raises `InvalidParameterError`
for any input (no such error class exists; `fs = 0` raises
`ZeroDivisionError` instead, see the counterexample). The clamping half of
the claim is real: for `fs > 0`, `order ≥ 1`, `fc ≥ fs/2` and a signal
longer than the pad length `3 * (order + 1)`, the normalized cutoff is
clamped to `Wn = 0.99` (that is, `0.99 × Nyquist` over Nyquist) and the call
completes without error. -/
theorem butterworth_error_behavior (signal : List ℚ) (fs fc : ℚ) (order : ℤ)
    (hfs : 0 < fs) (hord : 1 ≤ order) (hfc : fs / 2 ≤ fc)
    (hsig : 3 * (order.toNat + 1) < signal.length) :
    butterworth_Wn fs fc = 99 / 100 ∧
    (∃ out, butterworth_lowpass signal fs fc order = .ok out) ∧
    ∀ (s2 : List ℚ) (f2 c2 : ℚ) (o2 : ℤ),
      butterworth_lowpass s2 f2 c2 o2 ≠ .error .invalidParameterError := by
  have h2 : (0:ℚ) < fs / 2 := by linarith
  have hWn : butterworth_Wn fs fc = 99 / 100 := by
    rw [butterworth_Wn]
    rw [min_eq_right (by linarith : 99 / 100 * (fs / 2) ≤ fc)]
    rw [mul_div_assoc, div_self (ne_of_gt h2), mul_one]
  refine ⟨hWn, ?_, fun s2 f2 c2 o2 => butterworth_never_invalid s2 f2 c2 o2⟩
  have hfs0 : fs ≠ 0 := ne_of_gt hfs
  simp only [butterworth_lowpass, if_neg hfs0, hWn]
  rw [if_neg (by norm_num), if_neg (by omega)]
  apply filtfilt_ok_of_length
  simp [butter]
  omega

/-- Witness for the amended C2: `fs = 100`, `fc = 60 ≥ 50 = fs/2`,
`order = 4`, signal of 16 zero samples. -/
theorem butterworth_error_behavior_witness :
    butterworth_Wn 100 60 = 99 / 100 ∧
    (∃ out, butterworth_lowpass (List.replicate 16 (0:ℚ)) 100 60 4 = .ok out) ∧
    ∀ (s2 : List ℚ) (f2 c2 : ℚ) (o2 : ℤ),
      butterworth_lowpass s2 f2 c2 o2 ≠ .error .invalidParameterError :=
  butterworth_error_behavior (List.replicate 16 (0:ℚ)) 100 60 4
    (by norm_num) (by decide) (by norm_num) (by decide)

/-- C9 counterexample: the moving average with window `4` on the length-2
signal `[5, 6]` returns `[5/4, 11/4, 11/4, 11/4]` — four samples, not two —
so the filters do not always return a sequence of the input's length. -/
theorem filters_length_counterexample :
    moving_average [(5:ℚ), 6] 4 = .ok [5/4, 11/4, 11/4, 11/4] ∧
    ¬ ([(5:ℚ)/4, 11/4, 11/4, 11/4].length = [(5:ℚ), 6].length) := by
  constructor
  · norm_num [moving_average, convolveSame, fullConv, List.range_succ,
      Finset.sum_range_succ, List.replicate]
  · decide

/-- C9 (amended): both filters are pure functions of their arguments in this
embedding (NumPy's `convolve` and SciPy's `filtfilt` allocate fresh output
arrays and never write into the input, so the input is unchanged after the
call); the moving-average output has length `max(N, W)`, which equals the
input length `N` exactly when `W ≤ N`; and whenever the low-pass filter
completes, its output has exactly the input's length. -/
theorem filters_length_behavior (signal : List ℚ) (W : ℕ)
    (hW : 1 ≤ W) (hne : signal ≠ []) :
    (moving_average signal W).map List.length = .ok (max signal.length W) ∧
    (W ≤ signal.length →
      (moving_average signal W).map List.length = .ok signal.length) ∧
    ∀ (s2 : List ℚ) (fs fc : ℚ) (order : ℤ) (out : List ℚ),
      butterworth_lowpass s2 fs fc order = .ok out →
        out.length = s2.length := by
  refine ⟨moving_average_map_length signal W hW hne, ?_,
    fun s2 fs fc order out h => butterworth_ok_length s2 fs fc order out h⟩
  intro hWle
  rw [moving_average_map_length signal W hW hne, Nat.max_eq_left hWle]

/-- Witness for the amended C9 at signal `[1, 2, 3]`, window `2`. -/
theorem filters_length_behavior_witness :
    (moving_average [(1:ℚ), 2, 3] 2).map List.length =
      .ok (max [(1:ℚ), 2, 3].length 2) ∧
    (2 ≤ [(1:ℚ), 2, 3].length →
      (moving_average [(1:ℚ), 2, 3] 2).map List.length =
        .ok [(1:ℚ), 2, 3].length) ∧
    ∀ (s2 : List ℚ) (fs fc : ℚ) (order : ℤ) (out : List ℚ),
      butterworth_lowpass s2 fs fc order = .ok out →
        out.length = s2.length :=
  filters_length_behavior [(1:ℚ), 2, 3] 2 (by decide) (by simp)
